import Mathlib

/-!
Verification of the AliceVision photometric-stereo core
(`src/aliceVision/photometricStereo/photometricStereo.cpp` and
`photometricDataIO.cpp`) against its natural-language specification.

The C++ code is shallowly embedded: `float` arithmetic is modelled by exact
rational (`ℚ`) or real (`ℝ`) arithmetic; Eigen matrices become functions over
`Fin`-indexed types or Mathlib `Matrix`; loops become structural recursion.
Where the IEEE behaviour of a division by zero matters (it produces a
non-finite value, Inf or NaN, never an ordinary number), the division is
modelled as an `Option`-valued operation returning `none` in that case.
-/

namespace PhotometricStereo

/-! ## The median operator

Embeds `median` (photometricStereo.cpp, lines 444-451).  The C++ sorts a copy
of the input ascending (`std::sort`; modelled by insertion sort, which yields
the same ascending ordering); for odd size it takes `aux(size/2)`, for even
size it assigns `aux((size-1)/2) + aux((size+1)/2)` (a sum of the two middle
elements).  Indices use C integer division; on `ℕ` the same expressions are
used verbatim. -/

def median (d : List ℚ) : ℚ :=
  let aux := d.insertionSort (· ≤ ·)
  if d.length % 2 == 0 then
    aux.getD ((d.length - 1) / 2) 0 + aux.getD ((d.length + 1) / 2) 0
  else
    aux.getD (d.length / 2) 0

/-! ## The shrink operator

Embeds `shrink` (photometricStereo.cpp, lines 426-442): entrywise, a value
`x > 0` is mapped to `max (|x| - rho) 0`, any other value to
`-(max (|x| - rho) 0)`. -/

def shrinkEntry (x rho : ℚ) : ℚ :=
  if x > 0 then max (|x| - rho) 0 else -(max (|x| - rho) 0)

def shrink (mat : Matrix (Fin m) (Fin n) ℚ) (rho : ℚ) : Matrix (Fin m) (Fin n) ℚ :=
  Matrix.of fun i j => shrinkEntry (mat i j) rho

/-! ## Masks and pixel selection

Embeds `loadMask`'s "no mask" sentinel (a 1×1 image, photometricDataIO.cpp
lines 171-185), `getIndMask` (lines 187-203: outer loop over columns, inner
loop over rows, pushing the linear index `j*rows + i` whenever the mask value
strictly exceeds `0.7`) and the identity index mapping used when no mask is
present (photometricStereo.cpp lines 139-174 and 233-242). -/

structure MaskImg where
  rows : ℕ
  cols : ℕ
  val : ℕ → ℕ → ℚ

def hasMask (mask : MaskImg) : Bool :=
  !(mask.rows == 1 && mask.cols == 1)

def getIndMask (mask : MaskImg) : List ℕ :=
  (List.range mask.cols).flatMap fun j =>
    ((List.range mask.rows).filter fun i => decide ((7 : ℚ) / 10 < mask.val i j)).map
      fun i => j * mask.rows + i

/-- The ordered set of linear pixel indices taking part in the solve: the
`getIndMask` list when a real mask is present, the identity enumeration of all
`pictRows * pictCols` pixels otherwise (the source then uses `currentIdx = i`
directly). -/
def activePixels (mask : MaskImg) (pictRows pictCols : ℕ) : List ℕ :=
  if hasMask mask then getIndMask mask else List.range (pictRows * pictCols)

/-! ## Directory scanning for picture names

Embeds `getPicturesNames` and `compareFunction` (photometricStereo.cpp, lines
397-424).  A directory entry is abstracted as its full path plus the stem and
extension that `boost::filesystem` would extract from it.  For every entry, in
enumeration order, the code keeps the path when the stem case-insensitively
contains neither "mask" nor "ambiant" and the lower-cased extension equals one
of the supported extensions (one push per matching list element), then sorts
the collected paths with `a < b` on full paths (`std::sort`; modelled by
insertion sort, which produces the same `≤`-ordered result). -/

structure DirEntry where
  path : String
  stem : String
  ext : String
deriving DecidableEq

def lowerStr (s : String) : String := s.map Char.toLower

def leadsWith : List Char → List Char → Bool
  | [], _ => true
  | _ :: _, [] => false
  | a :: as, b :: bs => a == b && leadsWith as bs

def occursIn (needle : List Char) : List Char → Bool
  | [] => leadsWith needle []
  | b :: bs => leadsWith needle (b :: bs) || occursIn needle bs

/-- `boost::algorithm::icontains hay needle`: case-insensitive substring test. -/
def icontains (hay needle : String) : Bool :=
  occursIn (lowerStr needle).data (lowerStr hay).data

def keepEntry (e : DirEntry) : Bool :=
  !(icontains e.stem "mask") && !(icontains e.stem "ambiant")

def getPicturesNames (exts : List String) (entries : List DirEntry) : List String :=
  (entries.flatMap fun f =>
      if keepEntry f then (exts.filter fun e => lowerStr f.ext == e).map fun _ => f.path
      else []).insertionSort (· ≤ ·)

/-! ## Global max-normalization of matrices

Embeds `imMat = imMat/imMat.maxCoeff()`, `imMat_gray = imMat_gray/...` and
`albedoVect = albedoVect/albedoVect.maxCoeff()` (photometricStereo.cpp lines
222-223 and 357): Eigen's `maxCoeff` is the greatest entry (not the greatest
absolute value), and the whole matrix is divided by it. -/

def maxCoeff {m n : ℕ} (A : Matrix (Fin (m + 1)) (Fin (n + 1)) ℚ) : ℚ :=
  Finset.univ.sup' Finset.univ_nonempty fun p : Fin (m + 1) × Fin (n + 1) => A p.1 p.2

def normalizeByMax {m n : ℕ} (A : Matrix (Fin (m + 1)) (Fin (n + 1)) ℚ) :
    Matrix (Fin (m + 1)) (Fin (n + 1)) ℚ :=
  Matrix.of fun i j => A i j / maxCoeff A

/-! ## Normal-map PNG encoding

Embeds `convertNormalMap2png` (photometricDataIO.cpp, lines 285-307).  Per
pixel `(x, y, z)`: if `x*x + y*y + z*z == 0` all three output channels are
`0`; otherwise channel 0 is `floor(255*(x+1)/2)`, channel 1 is
`-floor(255*(y+1)/2)` and channel 2 is `-floor(255*z)`.  The output value is
the signed integer computed by the C expression, before the narrowing store
into the `unsigned char` image. -/

def sumSq3 (v : Fin 3 → ℚ) : ℚ := v 0 * v 0 + v 1 * v 1 + v 2 * v 2

def convertPixel (v : Fin 3 → ℚ) : Fin 3 → ℤ :=
  if sumSq3 v = 0 then ![0, 0, 0]
  else ![⌊255 * (v 0 + 1) / 2⌋, -⌊255 * (v 1 + 1) / 2⌋, -⌊255 * v 2⌋]

def convertNormalMap2png (img : ℕ → ℕ → Fin 3 → ℚ) : ℕ → ℕ → Fin 3 → ℤ :=
  fun i j => convertPixel (img i j)

/-- The per-pixel encoding as the claim words it: each axis mapped to
`floor(255*(axis+1)/2)`, with the Y and Z axis values negated BEFORE that
same mapping, and zero vectors encoded as pure black.  Kept separate from the
source-derived `convertPixel` so the two can be compared. -/
def convertPixelClaim (v : Fin 3 → ℚ) : Fin 3 → ℤ :=
  if v = 0 then ![0, 0, 0]
  else ![⌊255 * (v 0 + 1) / 2⌋, ⌊255 * (-v 1 + 1) / 2⌋, ⌊255 * (-v 2 + 1) / 2⌋]

/-! ## Observation matrix construction and ambient subtraction

Embeds the per-image processing loop of `photometricStereo` (lines 180-220):
optional pixel-wise ambient subtraction (`imageFloat = imageFloat -
imageAmbiant`), per-channel intensity scaling (`intensityScaling`,
photometricDataIO.cpp lines 205-220), projection onto the active pixels
(`image2PsMatrix`, lines 222-244: same column-major mask traversal as
`getIndMask`, the index advancing only on selected pixels), and the
luminance rows built with the fixed weights `0.2126 / 0.7152 / 0.0722`. -/

/-- A decoded floating-point RGB image: row, column, channel. -/
abbrev PSImage := ℕ → ℕ → Fin 3 → ℚ

def subImage (a b : PSImage) : PSImage := fun i j c => a i j c - b i j c

def intensityScaling (ints : Fin 3 → ℚ) (img : PSImage) : PSImage :=
  fun i j c => img i j c / ints c

/-- The coordinates visited with a write by `image2PsMatrix`, in order. -/
def activeCoords (mask : MaskImg) (rows cols : ℕ) : List (ℕ × ℕ) :=
  (List.range cols).flatMap fun j =>
    ((List.range rows).filter fun i =>
      !(hasMask mask) || decide ((7 : ℚ) / 10 < mask.val i j)).map fun i => (i, j)

/-- `image2PsMatrix`: the 3×maskSize block of one image, as the ordered list
of its columns (one RGB triple per active pixel). -/
def image2PsMatrix (img : PSImage) (mask : MaskImg) (rows cols : ℕ) :
    List (Fin 3 → ℚ) :=
  (activeCoords mask rows cols).map fun p c => img p.1 p.2 c

/-- One image's processing before stacking: ambient subtraction when an
ambient image is present, then intensity scaling. -/
def processImage (amb : Option PSImage) (ints : Fin 3 → ℚ) (img : PSImage) : PSImage :=
  intensityScaling ints (match amb with
    | some a => subImage img a
    | none => img)

/-- The stacked color observation blocks (`imMat`), one block per image. -/
def colorBlocks (imgs : List (PSImage × (Fin 3 → ℚ))) (amb : Option PSImage)
    (mask : MaskImg) (rows cols : ℕ) : List (List (Fin 3 → ℚ)) :=
  imgs.map fun pr => image2PsMatrix (processImage amb pr.2 pr.1) mask rows cols

def grayOfCol (v : Fin 3 → ℚ) : ℚ :=
  v 0 * (2126 / 10000) + v 1 * (7152 / 10000) + v 2 * (722 / 10000)

/-- The stacked luminance observation rows (`imMat_gray`). -/
def grayBlocks (imgs : List (PSImage × (Fin 3 → ℚ))) (amb : Option PSImage)
    (mask : MaskImg) (rows cols : ℕ) : List (List ℚ) :=
  (colorBlocks imgs amb mask rows cols).map (List.map grayOfCol)

/-- An ambient reference image whose pixels are all exactly zero. -/
def zeroImage : PSImage := fun _ _ _ => 0

/-! ## The robust (ADMM-style) refinement loop

Embeds the `isRobust` branch of `photometricStereo` (lines 246-285).  The SVD
least-squares solve `lightMat.bdcSvd(...).solve(...)` is an external Eigen
routine and is abstracted as a function parameter `solve`; everything else —
the `mu = 0.1` penalty, the E/W initialisation, the order of the M/E/W
updates, the `k > 10 && ecart_relatif < 0.001` convergence test, and the
`k < 1000` iteration budget — is taken from the source.  The float test
`ecart.norm()/M.norm() < 0.001` is modelled by the exactly equivalent
squared comparison `frobSq ecart < 0.001^2 * frobSq M`: for `‖M‖ > 0` the two
agree, and for `‖M‖ = 0` the float quotient is `Inf` or `NaN`, whose
comparison with `0.001` is false, matching `frobSq ecart < 0` being false. -/

def frobSq {a b : ℕ} (A : Matrix (Fin a) (Fin b) ℚ) : ℚ := ∑ i, ∑ j, A i j ^ 2

structure RState (imgs d n : ℕ) where
  M : Matrix (Fin d) (Fin n) ℚ
  E : Matrix (Fin imgs) (Fin n) ℚ
  W : Matrix (Fin imgs) (Fin n) ℚ

def mu : ℚ := 1 / 10

/-- One iteration body: M-update (by the abstracted least-squares solve),
E-update (shrink with threshold `1.0/mu`), W-update (dual ascent with
step `mu`).  `X/mu` on a matrix is the entrywise division `mu⁻¹ • X`. -/
def robustStep {imgs d n : ℕ}
    (solve : Matrix (Fin imgs) (Fin n) ℚ → Matrix (Fin d) (Fin n) ℚ)
    (lightMat : Matrix (Fin imgs) (Fin d) ℚ) (gray : Matrix (Fin imgs) (Fin n) ℚ)
    (s : RState imgs d n) : RState imgs d n :=
  let newImMat := gray + s.E - mu⁻¹ • s.W
  let M := solve newImMat
  let E := shrink (lightMat * M - gray + mu⁻¹ • s.W) mu⁻¹
  let W := s.W + mu • (lightMat * M - gray - E)
  ⟨M, E, W⟩

/-- The squared form of `ecart.norm()/M_channel.norm() < epsilon` with
`epsilon = 0.001`, comparing the previous state's M against the new one. -/
def convTest {imgs d n : ℕ} (sPrev sNew : RState imgs d n) : Bool :=
  decide (frobSq (sPrev.M - sNew.M) < (1 / 1000 : ℚ) ^ 2 * frobSq sNew.M)

/-- The `for (k = 0; k < max_iterations; ++k)` loop: `fuel` is the remaining
budget, `k` the current loop index.  Returns the final state, the number of
iterations executed, and whether the loop stopped through the convergence
`break`. -/
def loopIter {S : Type} (step : S → S) (near : S → S → Bool) :
    ℕ → ℕ → S → S × ℕ × Bool
  | 0, _, s => (s, 0, false)
  | fuel + 1, k, s =>
    let t := step s
    if 10 < k ∧ near s t = true then (t, 1, true)
    else
      let r := loopIter step near fuel (k + 1) t
      (r.1, r.2.1 + 1, r.2.2)

/-- The robust refinement: state initialised from the non-robust solution
`M0` with `E = lightMat*M0 - gray` and `W = 0`, budget `1000`, loop index
starting at `0`. -/
def robustRefine {imgs d n : ℕ}
    (solve : Matrix (Fin imgs) (Fin n) ℚ → Matrix (Fin d) (Fin n) ℚ)
    (lightMat : Matrix (Fin imgs) (Fin d) ℚ) (gray : Matrix (Fin imgs) (Fin n) ℚ)
    (M0 : Matrix (Fin d) (Fin n) ℚ) : RState imgs d n × ℕ × Bool :=
  loopIter (robustStep solve lightMat gray) convTest 1000 0 ⟨M0, lightMat * M0 - gray, 0⟩

/-! ## Normal estimation: per-column normalization and scatter

Embeds `normalsVect.col(currentIdx) = M_channel.col(i)/M_channel.col(i).norm()`
(photometricStereo.cpp lines 225-244, repeated verbatim in the robust branch
at lines 287-298): `normalsVect` starts as `MatrixXf::Zero`, and for each of
the `maskSize` active pixels the solved column, divided by its Euclidean
norm, is written at `currentIdx` (`indexes.at(i)` with a mask, `i` without).
The solved matrix `M_channel` comes from Eigen's `bdcSvd(...).solve(...)`,
which is abstracted as a function parameter.  The `float` division is exact
real division except by zero: there IEEE produces `Inf` (nonzero numerator)
or `NaN` (`0.0f/0.0f`), never an ordinary value — modelled by `fdiv`
returning `none`. -/

noncomputable def fdiv (a b : ℝ) : Option ℝ :=
  if b = 0 then none else some (a / b)

noncomputable def colNorm {d : ℕ} (v : Fin d → ℝ) : ℝ :=
  Real.sqrt (∑ c, v c ^ 2)

noncomputable def normalizeCol {d : ℕ} (v : Fin d → ℝ) : Fin d → Option ℝ :=
  fun c => fdiv (v c) (colNorm v)

/-- The dense normals buffer: pixel index to column of (possibly non-finite)
values. -/
abbrev NormalsMap (d : ℕ) : Type := ℕ → Fin d → Option ℝ

/-- `Eigen::MatrixXf::Zero`: every column starts as the zero vector. -/
def initNormals (d : ℕ) : NormalsMap d := fun _ _ => some 0

def writeCol {d : ℕ} (mp : NormalsMap d) (p : ℕ) (v : Fin d → Option ℝ) :
    NormalsMap d :=
  fun q c => if q = p then v c else mp q c

/-- The scatter loop `for i in [0, maskSize)`: write the normalized solved
column `M i` at pixel `sel i`. -/
noncomputable def scatterNormals {d : ℕ} (sel : ℕ → ℕ) (M : ℕ → Fin d → ℝ) :
    ℕ → NormalsMap d → NormalsMap d
  | 0, mp => mp
  | k + 1, mp => writeCol (scatterNormals sel M k mp) (sel k) (normalizeCol (M k))

/-- Outcome type for the solver entry: the C++ function either returns
normally or signals an error; `photometricStereo` has no throw of its own. -/
inductive PSOutcome (α : Type) where
  | ok : α → PSOutcome α
  | configError : String → PSOutcome α

def isConfigError {α : Type} : PSOutcome α → Bool
  | .configError _ => true
  | .ok _ => false

/-- The grayscale normal-estimation step (lines 229-244): an unconditional
least-squares solve followed by the normalization scatter — the source
contains no rank or dimension check on `lightMat` and no error path. -/
noncomputable def normalEstimation {imgs d : ℕ}
    (solve : Matrix (Fin imgs) (Fin d) ℝ → (Fin imgs → ℕ → ℝ) → (ℕ → Fin d → ℝ))
    (lightMat : Matrix (Fin imgs) (Fin d) ℝ) (gray : Fin imgs → ℕ → ℝ)
    (sel : ℕ → ℕ) (maskSize : ℕ) : PSOutcome (NormalsMap d) :=
  PSOutcome.ok (scatterNormals sel (solve lightMat gray) maskSize (initNormals d))

end PhotometricStereo

namespace PhotometricStereo

/-- `|shrinkEntry x t|` is exactly the soft-threshold magnitude `max (|x| - t) 0`. -/
lemma abs_shrinkEntry (x t : ℚ) : |shrinkEntry x t| = max (|x| - t) 0 := by
  unfold shrinkEntry
  split
  · exact abs_of_nonneg (le_max_right _ _)
  · rw [abs_neg]
    exact abs_of_nonneg (le_max_right _ _)

lemma shrinkEntry_eq_sign_mul (x t : ℚ) (ht : 0 ≤ t) :
    shrinkEntry x t = (SignType.sign x : ℚ) * max (|x| - t) 0 := by
  unfold shrinkEntry
  rcases lt_trichotomy x 0 with hx | hx | hx
  · rw [if_neg (not_lt.mpr hx.le), sign_neg hx, SignType.coe_neg_one]
    ring
  · subst hx
    rw [if_neg (lt_irrefl 0), sign_zero]
    simp [max_eq_right (neg_nonpos.mpr ht)]
  · rw [if_pos hx, sign_pos hx, SignType.coe_one]
    ring

/-- A strictly-ascending flatMap over column chunks: each chunk is ascending
and chunks for later columns dominate earlier ones. -/
lemma pairwise_lt_flatMap_range (g : ℕ → List ℕ) (C : ℕ)
    (hin : ∀ j, (g j).Pairwise (· < ·))
    (hcross : ∀ j₁ j₂, j₁ < j₂ → ∀ a ∈ g j₁, ∀ b ∈ g j₂, a < b) :
    ((List.range C).flatMap g).Pairwise (· < ·) := by
  induction C with
  | zero => simp
  | succ k ih =>
    rw [List.range_succ, List.flatMap_append]
    refine List.pairwise_append.mpr ⟨ih, by simpa using hin k, ?_⟩
    intro a ha b hb
    rw [List.mem_flatMap] at ha
    obtain ⟨j, hj, haj⟩ := ha
    rw [List.mem_range] at hj
    simp only [List.flatMap_cons, List.flatMap_nil, List.append_nil] at hb
    exact hcross j k hj a haj b hb

/-- C2: the median operator of the source sums the two middle sorted elements
for even-length input instead of averaging them: on `[1, 2, 3, 4]` the code
yields `2 + 3 = 5`, not the median `5/2`. -/
theorem median_even_sums_not_averages :
    median [1, 2, 3, 4] = 5 ∧ median [1, 2, 3, 4] ≠ 5 / 2 := by
  constructor <;> norm_num [median, List.insertionSort, List.orderedInsert]

/-- C8: for every matrix entry `x` and threshold `t ≥ 0`, the shrink operator
computes `sign x * max (|x| - t) 0`; `shrink` maps a zero entry to `0`; and the
magnitude of the shrunk value is monotone non-decreasing in `|x|`. -/
theorem shrink_soft_threshold {m n : ℕ} (mat : Matrix (Fin m) (Fin n) ℚ)
    (t : ℚ) (ht : 0 ≤ t) (i : Fin m) (j : Fin n) :
    shrink mat t i j = (SignType.sign (mat i j) : ℚ) * max (|mat i j| - t) 0 ∧
    shrinkEntry 0 t = 0 ∧
    (∀ x y : ℚ, |x| ≤ |y| → |shrinkEntry x t| ≤ |shrinkEntry y t|) := by
  refine ⟨shrinkEntry_eq_sign_mul _ _ ht, ?_, ?_⟩
  · rw [shrinkEntry_eq_sign_mul 0 t ht, sign_zero, SignType.coe_zero]
    ring
  · intro x y hxy
    rw [abs_shrinkEntry, abs_shrinkEntry]
    exact max_le_max (sub_le_sub_right hxy t) le_rfl

/-- C6: for a genuine mask (not the 1×1 sentinel) the active-pixel list
contains exactly the linear indices `j*rows + i` of the pixels whose mask
value strictly exceeds `0.7`, in strictly ascending (column-major) order; for
the 1×1 sentinel, the list is the identity enumeration of all
`pictRows * pictCols` pixels. -/
theorem activePixels_mask_selection (mask : MaskImg) (pictRows pictCols : ℕ)
    (h : ¬(mask.rows = 1 ∧ mask.cols = 1)) :
    (∀ n, n ∈ activePixels mask pictRows pictCols ↔
      ∃ i j, i < mask.rows ∧ j < mask.cols ∧ (7 : ℚ) / 10 < mask.val i j ∧
        n = j * mask.rows + i) ∧
    (activePixels mask pictRows pictCols).Pairwise (· < ·) ∧
    (∀ f : ℕ → ℕ → ℚ,
      activePixels ⟨1, 1, f⟩ pictRows pictCols = List.range (pictRows * pictCols)) := by
  have hm : hasMask mask = true := by
    simp only [hasMask, Bool.not_eq_true', Bool.and_eq_false_iff, beq_eq_false_iff_ne,
      ne_eq]
    by_contra hc
    push_neg at hc
    exact h ⟨hc.1, hc.2⟩
  refine ⟨?_, ?_, ?_⟩
  · intro n
    rw [activePixels, if_pos hm, getIndMask]
    simp only [List.mem_flatMap, List.mem_map, List.mem_filter, List.mem_range,
      decide_eq_true_eq]
    constructor
    · rintro ⟨j, hj, i, ⟨hi, hv⟩, rfl⟩
      exact ⟨i, j, hi, hj, hv, rfl⟩
    · rintro ⟨i, j, hi, hj, hv, rfl⟩
      exact ⟨j, hj, i, ⟨hi, hv⟩, rfl⟩
  · rw [activePixels, if_pos hm, getIndMask]
    refine pairwise_lt_flatMap_range _ _ (fun j => ?_) ?_
    · rw [List.pairwise_map]
      exact (((List.pairwise_lt_range mask.rows).filter _).imp (fun hab => by omega))
    · intro j₁ j₂ hj a ha b hb
      simp only [List.mem_map, List.mem_filter, List.mem_range] at ha hb
      obtain ⟨i₁, ⟨hi₁, _⟩, rfl⟩ := ha
      obtain ⟨i₂, ⟨hi₂, _⟩, rfl⟩ := hb
      have h1 : (j₁ + 1) * mask.rows ≤ j₂ * mask.rows :=
        Nat.mul_le_mul_right _ hj
      rw [Nat.succ_mul] at h1
      omega
  · intro f
    simp [activePixels, hasMask]

/-- Witness for C6 at a concrete 2×2 mask whose only above-threshold pixel is
`(row, col) = (0, 1)`. -/
theorem activePixels_mask_selection_witness :
    ¬((2 : ℕ) = 1 ∧ (2 : ℕ) = 1) ∧
    ((∀ n, n ∈ activePixels ⟨2, 2, fun i j => if i = 0 ∧ j = 1 then 1 else 0⟩ 2 2 ↔
      ∃ i j, i < 2 ∧ j < 2 ∧
        (7 : ℚ) / 10 < (if i = 0 ∧ j = 1 then (1 : ℚ) else 0) ∧ n = j * 2 + i) ∧
    (activePixels ⟨2, 2, fun i j => if i = 0 ∧ j = 1 then 1 else 0⟩ 2 2).Pairwise (· < ·) ∧
    (∀ f : ℕ → ℕ → ℚ, activePixels ⟨1, 1, f⟩ 2 2 = List.range (2 * 2))) :=
  ⟨by decide,
    activePixels_mask_selection ⟨2, 2, fun i j => if i = 0 ∧ j = 1 then 1 else 0⟩ 2 2
      (by decide)⟩

/-- Witness for C8 at `mat = !![-3]`, `t = 1`. -/
theorem shrink_soft_threshold_witness :
    (0 : ℚ) ≤ 1 ∧
    (shrink !![(-3 : ℚ)] 1 0 0 = (SignType.sign ((!![(-3 : ℚ)]) 0 0) : ℚ) *
        max (|(!![(-3 : ℚ)]) 0 0| - 1) 0 ∧
      shrinkEntry 0 1 = 0 ∧
      (∀ x y : ℚ, |x| ≤ |y| → |shrinkEntry x 1| ≤ |shrinkEntry y 1|)) :=
  ⟨by norm_num, shrink_soft_threshold !![(-3 : ℚ)] 1 (by norm_num) 0 0⟩

lemma le_maxCoeff {m n : ℕ} (A : Matrix (Fin (m + 1)) (Fin (n + 1)) ℚ)
    (i : Fin (m + 1)) (j : Fin (n + 1)) : A i j ≤ maxCoeff A :=
  Finset.le_sup' (fun p : Fin (m + 1) × Fin (n + 1) => A p.1 p.2) (Finset.mem_univ (i, j))

/-- C7 (amended): whenever the greatest entry of a matrix is strictly
positive, dividing the matrix by that greatest entry leaves a matrix whose
greatest entry is exactly `1` — this covers the color observation matrix, the
luminance observation matrix and the albedo matrix, which the source all
normalizes this way. -/
theorem normalizeByMax_max_eq_one {m n : ℕ} (A : Matrix (Fin (m + 1)) (Fin (n + 1)) ℚ)
    (h : 0 < maxCoeff A) : maxCoeff (normalizeByMax A) = 1 := by
  obtain ⟨p, -, hp⟩ :=
    Finset.exists_mem_eq_sup' (Finset.univ_nonempty)
      (fun p : Fin (m + 1) × Fin (n + 1) => A p.1 p.2)
  apply le_antisymm
  · apply Finset.sup'_le
    rintro q -
    show A q.1 q.2 / maxCoeff A ≤ 1
    rw [div_le_one h]
    exact le_maxCoeff A q.1 q.2
  · have h1 : (normalizeByMax A) p.1 p.2 = 1 := by
      show A p.1 p.2 / maxCoeff A = 1
      rw [maxCoeff, hp] at h ⊢
      exact div_self h.ne'
    calc (1 : ℚ) = (normalizeByMax A) p.1 p.2 := h1.symm
      _ ≤ maxCoeff (normalizeByMax A) := le_maxCoeff _ p.1 p.2

/-- Witness for C7 (amended) at the 1×1 matrix `!![2]`. -/
theorem normalizeByMax_max_eq_one_witness :
    0 < maxCoeff !![(2 : ℚ)] ∧ maxCoeff (normalizeByMax !![(2 : ℚ)]) = 1 := by
  have hval : maxCoeff !![(2 : ℚ)] = 2 := by
    apply le_antisymm
    · apply Finset.sup'_le
      rintro ⟨i, j⟩ -
      fin_cases i <;> fin_cases j <;> norm_num [maxCoeff]
    · simpa using le_maxCoeff !![(2 : ℚ)] 0 0
  have hpos : 0 < maxCoeff !![(2 : ℚ)] := by rw [hval]; norm_num
  exact ⟨hpos, normalizeByMax_max_eq_one _ hpos⟩

/-- C7 counterexample: the claim's hypothesis "not all-zero" is not enough.
The 1×2 observation matrix `[-2, -1]` (negative entries arise after ambient
subtraction) is not all-zero, its `maxCoeff` is `-1`, and after the source's
normalization the greatest entry is `2`, not `1`. -/
theorem normalizeByMax_not_allzero_counterexample :
    (!![(-2 : ℚ), -1] : Matrix (Fin 1) (Fin 2) ℚ) ≠ 0 ∧
    maxCoeff (normalizeByMax !![(-2 : ℚ), -1]) ≠ 1 := by
  have h1 : maxCoeff !![(-2 : ℚ), -1] = -1 := by
    apply le_antisymm
    · apply Finset.sup'_le
      rintro ⟨i, j⟩ -
      fin_cases i <;> fin_cases j <;> norm_num [maxCoeff]
    · simpa using le_maxCoeff !![(-2 : ℚ), -1] 0 1
  have h2 : maxCoeff (normalizeByMax !![(-2 : ℚ), -1]) = 2 := by
    apply le_antisymm
    · apply Finset.sup'_le
      rintro ⟨i, j⟩ -
      fin_cases i <;> fin_cases j <;>
        simp [normalizeByMax, h1]
    · have := le_maxCoeff (normalizeByMax !![(-2 : ℚ), -1]) 0 0
      simpa [normalizeByMax, h1] using this
  constructor
  · intro hc
    have := congrFun (congrFun hc 0) 0
    norm_num at this
  · rw [h2]
    norm_num

/-- Over `ℚ`, the source's zero test `x*x + y*y + z*z == 0` is exactly the
test for the zero vector. -/
lemma sumSq3_eq_zero_iff (v : Fin 3 → ℚ) : sumSq3 v = 0 ↔ v = 0 := by
  constructor
  · intro h
    rw [sumSq3] at h
    have h0 : v 0 * v 0 = 0 :=
      le_antisymm (by nlinarith [mul_self_nonneg (v 1), mul_self_nonneg (v 2)])
        (mul_self_nonneg _)
    have h1 : v 1 * v 1 = 0 :=
      le_antisymm (by nlinarith [mul_self_nonneg (v 0), mul_self_nonneg (v 2)])
        (mul_self_nonneg _)
    have h2 : v 2 * v 2 = 0 :=
      le_antisymm (by nlinarith [mul_self_nonneg (v 0), mul_self_nonneg (v 1)])
        (mul_self_nonneg _)
    funext c
    fin_cases c
    · exact mul_self_eq_zero.mp h0
    · exact mul_self_eq_zero.mp h1
    · exact mul_self_eq_zero.mp h2
  · intro h
    subst h
    simp [sumSq3]

/-- C3 (amended): each exactly-zero normal is encoded as pure black, and each
nonzero normal `(x, y, z)` is encoded as
`(floor(255*(x+1)/2), -floor(255*(y+1)/2), -floor(255*z))`: the negations on
the Y and Z channels are applied AFTER flooring, and the Z channel omits the
`(axis+1)/2` transform altogether. -/
theorem convertNormalMap2png_encoding (img : ℕ → ℕ → Fin 3 → ℚ) (i j : ℕ) :
    (img i j = 0 → convertNormalMap2png img i j = ![0, 0, 0]) ∧
    (img i j ≠ 0 → convertNormalMap2png img i j =
      ![⌊255 * (img i j 0 + 1) / 2⌋, -⌊255 * (img i j 1 + 1) / 2⌋,
        -⌊255 * img i j 2⌋]) := by
  constructor
  · intro h
    rw [convertNormalMap2png, convertPixel, if_pos ((sumSq3_eq_zero_iff _).mpr h)]
  · intro h
    rw [convertNormalMap2png, convertPixel,
      if_neg (fun hc => h ((sumSq3_eq_zero_iff _).mp hc))]

/-- Witness for C3 (amended) at the constant image of normal `(0, 0, 1)`. -/
theorem convertNormalMap2png_encoding_witness :
    (![0, 0, 1] : Fin 3 → ℚ) ≠ 0 ∧
    convertNormalMap2png (fun _ _ => ![0, 0, 1]) 0 0 =
      ![⌊255 * ((![0, 0, 1] : Fin 3 → ℚ) 0 + 1) / 2⌋,
        -⌊255 * ((![0, 0, 1] : Fin 3 → ℚ) 1 + 1) / 2⌋,
        -⌊255 * (![0, 0, 1] : Fin 3 → ℚ) 2⌋] := by
  have hne : (![0, 0, 1] : Fin 3 → ℚ) ≠ 0 := by
    intro h
    have := congrFun h 2
    norm_num at this
  exact ⟨hne, (convertNormalMap2png_encoding (fun _ _ => ![0, 0, 1]) 0 0).2 hne⟩

/-- C3 counterexample: on the nonzero normal `(0, 0, 1)` the source encodes
channel 2 as `-floor(255*1) = -255`, whereas the claimed encoding
(`floor(255*(-z+1)/2)`) yields `0`; the claim as stated is false. -/
theorem convertNormalMap2png_counterexample :
    (![0, 0, 1] : Fin 3 → ℚ) ≠ 0 ∧
    convertNormalMap2png (fun _ _ => ![0, 0, 1]) 0 0 ≠ convertPixelClaim ![0, 0, 1] := by
  have hne : (![0, 0, 1] : Fin 3 → ℚ) ≠ 0 := by
    intro h
    have := congrFun h 2
    norm_num at this
  refine ⟨hne, fun h => ?_⟩
  have h2 := congrFun h 2
  rw [convertNormalMap2png, convertPixel,
    if_neg (fun hc => hne ((sumSq3_eq_zero_iff _).mp hc)),
    convertPixelClaim, if_neg hne] at h2
  norm_num at h2

lemma loopIter_count_le {S : Type} (step : S → S) (near : S → S → Bool) :
    ∀ fuel k (s : S), (loopIter step near fuel k s).2.1 ≤ fuel := by
  intro fuel
  induction fuel with
  | zero => intro k s; simp [loopIter]
  | succ f ih =>
    intro k s
    rw [loopIter]
    split
    · simp
    · simpa using Nat.succ_le_succ (ih (k + 1) _)

lemma loopIter_state_eq {S : Type} (step : S → S) (near : S → S → Bool) :
    ∀ fuel k (s : S),
      (loopIter step near fuel k s).1 = step^[(loopIter step near fuel k s).2.1] s := by
  intro fuel
  induction fuel with
  | zero => intro k s; simp [loopIter]
  | succ f ih =>
    intro k s
    rw [loopIter]
    split
    · simp
    · simpa [Function.iterate_succ_apply] using ih (k + 1) (step s)

lemma loopIter_false_count {S : Type} (step : S → S) (near : S → S → Bool) :
    ∀ fuel k (s : S), (loopIter step near fuel k s).2.2 = false →
      (loopIter step near fuel k s).2.1 = fuel := by
  intro fuel
  induction fuel with
  | zero => intro k s _; simp [loopIter]
  | succ f ih =>
    intro k s
    rw [loopIter]
    split
    · simp
    · intro h
      simp only at h ⊢
      rw [ih (k + 1) (step s) h]

lemma loopIter_true_iff {S : Type} (step : S → S) (near : S → S → Bool) :
    ∀ fuel k (s : S), (loopIter step near fuel k s).2.2 = true ↔
      ∃ m, m < fuel ∧ 10 < k + m ∧ near (step^[m] s) (step^[m + 1] s) = true := by
  intro fuel
  induction fuel with
  | zero => intro k s; simp [loopIter]
  | succ f ih =>
    intro k s
    rw [loopIter]
    split
    · next hc =>
      simp only [true_iff]
      exact ⟨0, Nat.succ_pos _, by simpa using hc.1, by simpa using hc.2⟩
    · next hc =>
      simp only []
      rw [ih (k + 1) (step s)]
      simp only [← Function.iterate_succ_apply]
      constructor
      · rintro ⟨m, hm, hk, hn⟩
        exact ⟨m + 1, by omega, by omega, hn⟩
      · rintro ⟨m, hm, hk, hn⟩
        match m, hn with
        | 0, hn =>
          exact absurd ⟨by simpa using hk, by simpa using hn⟩ hc
        | m' + 1, hn =>
          exact ⟨m', by omega, by omega, hn⟩

lemma loopIter_true_count {S : Type} (step : S → S) (near : S → S → Bool) :
    ∀ fuel k (s : S), (loopIter step near fuel k s).2.2 = true →
      12 ≤ k + (loopIter step near fuel k s).2.1 := by
  intro fuel
  induction fuel with
  | zero => intro k s h; simp [loopIter] at h
  | succ f ih =>
    intro k s
    rw [loopIter]
    split
    · next hc =>
      intro _
      have := hc.1
      simpa using by omega
    · intro h
      simp only at h ⊢
      have := ih (k + 1) (step s) h
      omega

/-- C5: the robust refiner executes at most 1000 iterations; it stops through
the convergence `break` exactly when some loop index `m` with `10 < m < 1000`
satisfies the relative-change test between consecutive M estimates (so never
at index 10 or earlier — a convergent run takes at least 12 iterations); and
the state it returns is always the current estimate after exactly the
executed number of iterations (in particular, budget exhaustion returns the
current M rather than failing). -/
theorem robustRefine_loop_contract {imgs d n : ℕ}
    (solve : Matrix (Fin imgs) (Fin n) ℚ → Matrix (Fin d) (Fin n) ℚ)
    (lightMat : Matrix (Fin imgs) (Fin d) ℚ) (gray : Matrix (Fin imgs) (Fin n) ℚ)
    (M0 : Matrix (Fin d) (Fin n) ℚ) :
    (robustRefine solve lightMat gray M0).2.1 ≤ 1000 ∧
    (robustRefine solve lightMat gray M0).1 =
      (robustStep solve lightMat gray)^[(robustRefine solve lightMat gray M0).2.1]
        ⟨M0, lightMat * M0 - gray, 0⟩ ∧
    ((robustRefine solve lightMat gray M0).2.2 = true ↔
      ∃ m, m < 1000 ∧ 10 < m ∧
        convTest ((robustStep solve lightMat gray)^[m] ⟨M0, lightMat * M0 - gray, 0⟩)
          ((robustStep solve lightMat gray)^[m + 1] ⟨M0, lightMat * M0 - gray, 0⟩) = true) ∧
    ((robustRefine solve lightMat gray M0).2.2 = false →
      (robustRefine solve lightMat gray M0).2.1 = 1000) ∧
    ((robustRefine solve lightMat gray M0).2.2 = true →
      12 ≤ (robustRefine solve lightMat gray M0).2.1) := by
  refine ⟨loopIter_count_le _ _ 1000 0 _, loopIter_state_eq _ _ 1000 0 _, ?_,
    loopIter_false_count _ _ 1000 0 _, ?_⟩
  · rw [robustRefine, loopIter_true_iff]
    simp only [Nat.zero_add]
  · intro h
    simpa using loopIter_true_count _ _ 1000 0 _ h

/-- Witness for C5: the iteration-count bound at a concrete instance
(`solve = id` on 1×1 matrices, zero light matrix and observations). -/
theorem robustRefine_loop_contract_witness :
    (robustRefine (fun g : Matrix (Fin 1) (Fin 1) ℚ => g) 0 0 0).2.1 ≤ 1000 ∧
    (robustRefine (fun g : Matrix (Fin 1) (Fin 1) ℚ => g) 0 0 0).1 =
      (robustStep (fun g : Matrix (Fin 1) (Fin 1) ℚ => g) 0 0)^[
        (robustRefine (fun g : Matrix (Fin 1) (Fin 1) ℚ => g) 0 0 0).2.1]
        ⟨0, 0 * 0 - 0, 0⟩ :=
  ⟨(robustRefine_loop_contract (fun g => g) 0 0 0).1,
   (robustRefine_loop_contract (fun g => g) 0 0 0).2.1⟩

lemma scatterNormals_untouched {d : ℕ} (sel : ℕ → ℕ) (M : ℕ → Fin d → ℝ)
    (mp : NormalsMap d) :
    ∀ k p, (∀ i < k, sel i ≠ p) → scatterNormals sel M k mp p = mp p := by
  intro k
  induction k with
  | zero => intro p _; rfl
  | succ j ih =>
    intro p hp
    funext c
    show (if p = sel j then normalizeCol (M j) c else scatterNormals sel M j mp p c) =
      mp p c
    rw [if_neg (fun hc => hp j (Nat.lt_succ_self j) hc.symm)]
    rw [ih p (fun i hi => hp i (Nat.lt_succ_of_lt hi))]

lemma scatterNormals_written {d : ℕ} (sel : ℕ → ℕ) (M : ℕ → Fin d → ℝ)
    (mp : NormalsMap d) :
    ∀ k i, i < k → (∀ a < k, ∀ b < k, sel a = sel b → a = b) →
      scatterNormals sel M k mp (sel i) = normalizeCol (M i) := by
  intro k
  induction k with
  | zero => intro i hi; omega
  | succ j ih =>
    intro i hi hinj
    funext c
    show (if sel i = sel j then normalizeCol (M j) c
        else scatterNormals sel M j mp (sel i) c) = normalizeCol (M i) c
    by_cases hij : i = j
    · subst hij
      rw [if_pos rfl]
    · have hlt : i < j := by omega
      rw [if_neg (fun hc => hij (hinj i (by omega) j (Nat.lt_succ_self j) hc))]
      rw [ih i hlt (fun a ha b hb he => hinj a (by omega) b (by omega) he)]

/-- Dividing a column of norm `n ≠ 0` by `n` yields a column of norm 1. -/
lemma colNorm_normalized {d : ℕ} (v : Fin d → ℝ) (hn : colNorm v ≠ 0) :
    colNorm (fun c => v c / colNorm v) = 1 := by
  have hsum : (0 : ℝ) ≤ ∑ c, v c ^ 2 :=
    Finset.sum_nonneg fun _ _ => sq_nonneg _
  have hsq : colNorm v ^ 2 = ∑ c, v c ^ 2 := Real.sq_sqrt hsum
  rw [colNorm]
  simp only [div_pow, ← Finset.sum_div]
  rw [← hsq, div_self (pow_ne_zero 2 hn), Real.sqrt_one]

/-- C1 (amended): pixels never selected keep the zero vector; a selected
pixel whose solved column has nonzero norm stores exactly the column divided
by its Euclidean norm, which has unit length; a selected pixel whose solved
column has zero norm stores a column of non-finite values (the source divides
by zero without a guard), NOT the zero vector. -/
theorem normals_unit_or_degenerate {d : ℕ} (sel : ℕ → ℕ) (M : ℕ → Fin d → ℝ)
    (maskSize : ℕ)
    (hinj : ∀ a < maskSize, ∀ b < maskSize, sel a = sel b → a = b) :
    (∀ p, (∀ i < maskSize, sel i ≠ p) →
      ∀ c, scatterNormals sel M maskSize (initNormals d) p c = some 0) ∧
    (∀ i < maskSize, colNorm (M i) ≠ 0 →
      (∀ c, scatterNormals sel M maskSize (initNormals d) (sel i) c =
        some (M i c / colNorm (M i))) ∧
      colNorm (fun c => M i c / colNorm (M i)) = 1) ∧
    (∀ i < maskSize, colNorm (M i) = 0 →
      ∀ c, scatterNormals sel M maskSize (initNormals d) (sel i) c = none) := by
  refine ⟨?_, ?_, ?_⟩
  · intro p hp c
    rw [scatterNormals_untouched sel M _ maskSize p hp]
    rfl
  · intro i hi hn
    refine ⟨?_, colNorm_normalized (M i) hn⟩
    intro c
    rw [scatterNormals_written sel M _ maskSize i hi hinj]
    rw [normalizeCol, fdiv, if_neg hn]
  · intro i hi hn c
    rw [scatterNormals_written sel M _ maskSize i hi hinj]
    rw [normalizeCol, fdiv, if_pos hn]

/-- Witness for C1 (amended): a one-pixel solve with solved column
`(0, 0, 1)`, identity selection. -/
theorem normals_unit_or_degenerate_witness :
    (∀ a < 1, ∀ b < 1, (fun i : ℕ => i) a = (fun i : ℕ => i) b → a = b) ∧
    ((∀ p, (∀ i < 1, (fun i : ℕ => i) i ≠ p) →
      ∀ c, scatterNormals (fun i => i) (fun _ => ![(0 : ℝ), 0, 1]) 1 (initNormals 3) p c =
        some 0) ∧
    (∀ i < 1, colNorm ![(0 : ℝ), 0, 1] ≠ 0 →
      (∀ c, scatterNormals (fun i => i) (fun _ => ![(0 : ℝ), 0, 1]) 1 (initNormals 3)
          ((fun i : ℕ => i) i) c =
        some (![(0 : ℝ), 0, 1] c / colNorm ![(0 : ℝ), 0, 1])) ∧
      colNorm (fun c => ![(0 : ℝ), 0, 1] c / colNorm ![(0 : ℝ), 0, 1]) = 1) ∧
    (∀ i < 1, colNorm ![(0 : ℝ), 0, 1] = 0 →
      ∀ c, scatterNormals (fun i => i) (fun _ => ![(0 : ℝ), 0, 1]) 1 (initNormals 3)
          ((fun i : ℕ => i) i) c = none)) :=
  ⟨fun a ha b hb _ => by omega,
   normals_unit_or_degenerate (fun i => i) (fun _ => ![(0 : ℝ), 0, 1]) 1
     (fun a ha b hb _ => by omega)⟩

/-- C1 counterexample: with one selected pixel whose solved column is exactly
zero, the stored normal is not the zero vector — the unguarded division
`col/col.norm()` is a division by zero, so the stored components are
non-finite (`0.0f/0.0f` is NaN), not `0`. -/
theorem normals_zero_norm_counterexample :
    colNorm (fun _ : Fin 3 => (0 : ℝ)) = 0 ∧
    scatterNormals (fun i => i) (fun _ _ => (0 : ℝ)) 1 (initNormals 3) 0 0 ≠ some 0 := by
  have hn : colNorm (fun _ : Fin 3 => (0 : ℝ)) = 0 := by
    simp [colNorm]
  refine ⟨hn, ?_⟩
  have key : scatterNormals (fun i => i) (fun _ _ => (0 : ℝ)) 1 (initNormals 3) 0 0 =
      none := by
    show (if (0 : ℕ) = 0 then normalizeCol (fun _ : Fin 3 => (0 : ℝ)) 0
        else initNormals 3 0 0) = none
    rw [if_pos rfl]
    show fdiv ((0 : ℝ)) (colNorm fun _ : Fin 3 => (0 : ℝ)) = none
    rw [fdiv, if_pos hn]
  rw [key]
  exact fun h => Option.noConfusion h

/-- C4 (amended): the solver never signals a configuration error — for every
light matrix (including rank-deficient ones) it unconditionally performs the
least-squares solve and returns the scattered normals. -/
theorem normalEstimation_never_errors {imgs d : ℕ}
    (solve : Matrix (Fin imgs) (Fin d) ℝ → (Fin imgs → ℕ → ℝ) → (ℕ → Fin d → ℝ))
    (lightMat : Matrix (Fin imgs) (Fin d) ℝ) (gray : Fin imgs → ℕ → ℝ)
    (sel : ℕ → ℕ) (maskSize : ℕ) :
    normalEstimation solve lightMat gray sel maskSize =
      PSOutcome.ok (scatterNormals sel (solve lightMat gray) maskSize (initNormals d)) ∧
    isConfigError (normalEstimation solve lightMat gray sel maskSize) = false :=
  ⟨rfl, rfl⟩

/-- C4 counterexample: a 2-image, 3-dimensional light matrix (light_dim 3 >
image_count 2, hence necessarily rank-deficient) still produces an ordinary
`ok` result, not a configuration error. -/
theorem normalEstimation_rank_deficient_counterexample :
    (2 : ℕ) < 3 ∧
    isConfigError (normalEstimation
      (fun (_ : Matrix (Fin 2) (Fin 3) ℝ) (_ : Fin 2 → ℕ → ℝ) (_ : ℕ) (_ : Fin 3) =>
        (0 : ℝ))
      0 (fun _ _ => 0) (fun i => i) 0) = false :=
  ⟨by norm_num, rfl⟩

/-- C9: subtracting an all-zero ambient image leaves both the color and the
luminance observation matrices identical to those of the
no-ambient-removal path, for every image stack, intensity list and mask. -/
theorem ambient_zero_subtraction_identity (imgs : List (PSImage × (Fin 3 → ℚ)))
    (mask : MaskImg) (rows cols : ℕ) :
    colorBlocks imgs (some zeroImage) mask rows cols =
      colorBlocks imgs none mask rows cols ∧
    grayBlocks imgs (some zeroImage) mask rows cols =
      grayBlocks imgs none mask rows cols := by
  have hp : ∀ ints img, processImage (some zeroImage) ints img = processImage none ints img := by
    intro ints img
    funext i j c
    simp [processImage, subImage, zeroImage, intensityScaling]
  have hc : colorBlocks imgs (some zeroImage) mask rows cols =
      colorBlocks imgs none mask rows cols := by
    simp only [colorBlocks, hp]
  exact ⟨hc, by rw [grayBlocks, grayBlocks, hc]⟩

/-- C10: the returned image list holds exactly the paths of the entries whose
lower-cased extension is supported and whose stem contains neither "mask" nor
"ambiant" (case-insensitively); it is sorted ascending by full path; and it is
insensitive to the directory enumeration order (permuting the input entries
leaves the output unchanged). -/
theorem getPicturesNames_lists_supported_sorted (exts : List String)
    (entries entries2 : List DirEntry) :
    (∀ p, p ∈ getPicturesNames exts entries ↔
      ∃ e ∈ entries, e.path = p ∧ icontains e.stem "mask" = false ∧
        icontains e.stem "ambiant" = false ∧ lowerStr e.ext ∈ exts) ∧
    (getPicturesNames exts entries).Sorted (· ≤ ·) ∧
    (entries.Perm entries2 → getPicturesNames exts entries = getPicturesNames exts entries2) := by
  refine ⟨?_, List.sorted_insertionSort _ _, ?_⟩
  · intro p
    rw [getPicturesNames, (List.perm_insertionSort _ _).mem_iff, List.mem_flatMap]
    constructor
    · rintro ⟨e, he, hp⟩
      rw [apply_ite (p ∈ ·)] at hp
      split at hp
      · next hkeep =>
        simp only [List.mem_map, List.mem_filter, beq_iff_eq] at hp
        obtain ⟨x, ⟨hx, hxe⟩, rfl⟩ := hp
        rw [keepEntry, Bool.and_eq_true, Bool.not_eq_true', Bool.not_eq_true'] at hkeep
        exact ⟨e, he, rfl, hkeep.1, hkeep.2, hxe ▸ hx⟩
      · simp at hp
    · rintro ⟨e, he, rfl, hm, ha, hx⟩
      refine ⟨e, he, ?_⟩
      rw [if_pos (by rw [keepEntry, hm, ha]; rfl)]
      simp only [List.mem_map, List.mem_filter, beq_iff_eq]
      exact ⟨lowerStr e.ext, ⟨hx, rfl⟩, trivial⟩
  · intro hp
    refine List.eq_of_perm_of_sorted ?_ (List.sorted_insertionSort _ _)
      (List.sorted_insertionSort _ _)
    exact (List.perm_insertionSort _ _).trans ((hp.flatMap_right _).trans
      (List.perm_insertionSort _ _).symm)

/-- Witness for C10 on two concrete two-entry directories that are
permutations of each other. -/
theorem getPicturesNames_lists_supported_sorted_witness :
    (∀ p, p ∈ getPicturesNames [".png"]
        [⟨"/d/b.png", "b", ".PNG"⟩, ⟨"/d/a.png", "a", ".png"⟩] ↔
      ∃ e ∈ [(⟨"/d/b.png", "b", ".PNG"⟩ : DirEntry), ⟨"/d/a.png", "a", ".png"⟩],
        e.path = p ∧ icontains e.stem "mask" = false ∧
        icontains e.stem "ambiant" = false ∧ lowerStr e.ext ∈ [".png"]) ∧
    (getPicturesNames [".png"]
      [⟨"/d/b.png", "b", ".PNG"⟩, ⟨"/d/a.png", "a", ".png"⟩]).Sorted (· ≤ ·) ∧
    getPicturesNames [".png"] [⟨"/d/b.png", "b", ".PNG"⟩, ⟨"/d/a.png", "a", ".png"⟩] =
      getPicturesNames [".png"] [⟨"/d/a.png", "a", ".png"⟩, ⟨"/d/b.png", "b", ".PNG"⟩] := by
  obtain ⟨h1, h2, h3⟩ := getPicturesNames_lists_supported_sorted [".png"]
    [⟨"/d/b.png", "b", ".PNG"⟩, ⟨"/d/a.png", "a", ".png"⟩]
    [⟨"/d/a.png", "a", ".png"⟩, ⟨"/d/b.png", "b", ".PNG"⟩]
  exact ⟨h1, h2, h3 (List.Perm.swap _ _ _)⟩

end PhotometricStereo
